import Mathlib

/-!
Verification development for the dataset augmentation pipeline in
YOLO_rqrr/train/augment.py.  File paths, stems and label payloads are
modelled as lists of characters; grayscale images as lists of natural
number intensities.  The pipeline function mirrors augment_dataset:
collection of seed pairs, augmentation expansion over the fixed transform
cascade, collection of the external (kolabit) train and val subtrees,
the seeded shuffle and ratio split, and the clear-then-copy output
materialization.
-/

namespace Augment

/-- Byte strings (file stems, names, label payloads) as character lists. -/
abbrev Bytes := List Char

/-- Convert a string literal to its character list. -/
def str (s : String) : Bytes := s.toList

/-- Grayscale image plane: the list of pixel intensities (row major). -/
abbrev Img := List Nat

/-- Minimum intensity of an image, as computed by grey.min in
contrast_stretch_adaptive (augment.py line 82); 0 on the empty plane. -/
def minL : Img → Nat
  | [] => 0
  | a :: as => as.foldl Nat.min a

/-- Maximum intensity, grey.max of augment.py line 82. -/
def maxL : Img → Nat
  | [] => 0
  | a :: as => as.foldl Nat.max a

/-- The contrast stretch stage of contrast_stretch_adaptive
(augment.py lines 82 to 86): lo and hi are the extreme intensities; when
hi equals lo the stretch is skipped and the grey plane is used unchanged,
otherwise each intensity v becomes (v - lo) / (hi - lo) * 255 truncated
to an integer (the float32 computation followed by the uint8 cast).  The
subsequent adaptive threshold of lines 87 to 89 maps the result into
the set containing 0 and 255 and is not needed for the stretch claims. -/
def contrast_stretch (grey : Img) : Img :=
  let lo := minL grey
  let hi := maxL grey
  if hi = lo then grey
  else grey.map (fun v => ((v - lo) * 255) / (hi - lo))

/-- Clip an integer intensity into the uint8 range, np.clip of
augment.py line 113. -/
def clip255 (z : Int) : Nat := (min z 255).toNat

/-- gaussian_noise (augment.py lines 110 to 114).  The draw
np.random.normal(0, sigma, img.shape) reads the global NumPy generator,
modelled here as an ambient stream of integer valued samples indexed by
pixel position: pixel i of the result is the clipped sum of the input
intensity and the i-th sample of the stream.  The pipeline never seeds
this generator, so the stream is an input of the function. -/
def gaussian_noise (noise : Nat → Int) (img : Img) : Img :=
  (img.enum).map (fun p => clip255 ((p.2 : Int) + noise p.1))

/-- The tags of the TRANSFORMS cascade (augment.py lines 126 to 137),
in declared order. -/
def TAGS : List Bytes :=
  [str "at15", str "at11", str "at21", str "clahe", str "blur_at",
   str "stretch_at", str "yellow", str "otsu", str "noise15", str "jpeg35"]

/-- Lexicographic comparison on byte strings, used to model the sorted()
calls around directory enumeration (augment.py lines 149, 203, 217). -/
def bytesLe : Bytes → Bytes → Bool
  | [], _ => true
  | _ :: _, [] => false
  | a :: as, b :: bs => if a = b then bytesLe as bs else decide (a < b)

/-- Sort a list of byte strings, the sorted() builtin. -/
def sortBytes (l : List Bytes) : List Bytes :=
  List.insertionSort (fun a b => bytesLe a b = true) l

/-- A directory entry of an images subtree: stem and extension (without
the dot) of one file. -/
abbrev FileEntry := Bytes × Bytes

/-- Sort directory entries by their full file name, the sorted() call on
iterdir() results. -/
def sortFiles (l : List FileEntry) : List FileEntry :=
  List.insertionSort
    (fun a b => bytesLe (a.1 ++ '.' :: a.2) (b.1 ++ '.' :: b.2) = true) l

/-- The Kipukas seed dataset root as the pipeline reads it: the files of
images/train, the labels of labels/train (stem to payload, none when the
label file is missing), and the decoded image of each stem (none when
cv2.imread returns None). -/
structure SeedDir where
  imgFiles : List FileEntry
  label : Bytes → Option Bytes
  image : Bytes → Option Img

/-- The kolabit dataset root: the images/train and images/val subtrees
with their label maps, plus the existence flags checked at augment.py
lines 202 and 216. -/
structure ExtDir where
  trainExists : Bool
  trainFiles : List FileEntry
  trainLabel : Bytes → Option Bytes
  valExists : Bool
  valFiles : List FileEntry
  valLabel : Bytes → Option Bytes

/-- One pooled (image, label, provenance name) record of all_samples.
The name is the provenance base name, lbl the label payload that will be
copied for it, ext the extension of the image file to be copied. -/
structure Sample where
  name : Bytes
  lbl : Bytes
  ext : Bytes
deriving DecidableEq, Repr

/-- Provenance tag of seed originals, the prefixed kip_ of line 160. -/
def kipPre : Bytes := 'k' :: 'i' :: 'p' :: '_' :: []

/-- Provenance tag of external train pairs, kol_ of line 210. -/
def kolPre : Bytes := 'k' :: 'o' :: 'l' :: '_' :: []

/-- Provenance tag of external val pairs, kol_v_ of line 224. -/
def kolVPre : Bytes := 'k' :: 'o' :: 'l' :: '_' :: 'v' :: '_' :: []

/-- Stems of the seed images: sorted(glob("*.jpg")) of augment.py
line 149 keeps exactly the files whose extension is the literal jpg. -/
def kipImgStems (d : SeedDir) : List Bytes :=
  sortBytes ((d.imgFiles.filter (fun f => f.2 = str "jpg")).map Prod.fst)

/-- The loop body of augment.py lines 154 to 160 for one stem: admit the
original pair when its label exists, else skip it. -/
def seedPairOfStem (d : SeedDir) (s : Bytes) : List Sample :=
  match d.label s with
  | some lb => [⟨kipPre ++ s, lb, str "jpg"⟩]
  | none => []

/-- Kipukas originals admitted to the pool (augment.py lines 154-160). -/
def seedOriginals (d : SeedDir) : List Sample :=
  (kipImgStems d).flatMap (seedPairOfStem d)

/-- Whether a transform application succeeded (no exception raised). -/
def exceptOk : Except Unit Img → Bool
  | .ok _ => true
  | .error _ => false

/-- A transform cascade: tag and operator pairs, the TRANSFORMS list.
Operators may raise, modelled by the Except result. -/
abbrev Cascade := List (Bytes × (Img → Except Unit Img))

/-- The inner loop of augment.py lines 167 to 193 for one stem: when the
label is present and the image decodes, apply every cascade operator to
the original image; a raising operator is skipped (lines 178-182), a
succeeding one contributes a pair whose name embeds stem and tag and
whose label is the verbatim source payload (copy2 of line 190). -/
def augPairsOfStem (d : SeedDir) (tfs : Cascade) (s : Bytes) : List Sample :=
  match d.label s with
  | none => []
  | some lb =>
    match d.image s with
    | none => []
    | some img =>
      tfs.filterMap (fun tf =>
        match tf.2 img with
        | .ok _ => some ⟨kipPre ++ s ++ '_' :: tf.1, lb, str "jpg"⟩
        | .error _ => none)

/-- All augmented Kipukas variants (augment.py lines 162 to 193). -/
def augmentedSamples (d : SeedDir) (tfs : Cascade) : List Sample :=
  (kipImgStems d).flatMap (augPairsOfStem d tfs)

/-- Extension admission test of the external collector: the lowercased
suffix must be jpg, jpeg or png (augment.py lines 204 and 218). -/
def extOk (x : Bytes) : Bool :=
  decide (x.map Char.toLower = str "jpg") || decide (x.map Char.toLower = str "jpeg")
    || decide (x.map Char.toLower = str "png")

/-- Shared body of the two kolabit loops (augment.py lines 203 to 211 and
217 to 225): enumerate entries in sorted order, keep those whose extension
passes extOk and whose label exists, naming them with the given tag. -/
def kolSamplesFrom (pre : Bytes) (lab : Bytes → Option Bytes)
    (l : List FileEntry) : List Sample :=
  l.filterMap (fun f =>
    if extOk f.2 then
      match lab f.1 with
      | some lb => some ⟨pre ++ f.1, lb, f.2⟩
      | none => none
    else none)

/-- Admitted stems of one kolabit subtree, for stating uniqueness. -/
def kolStemsFrom (lab : Bytes → Option Bytes) (l : List FileEntry) :
    List Bytes :=
  l.filterMap (fun f =>
    if extOk f.2 && (lab f.1).isSome then some f.1 else none)

/-- Kolabit train pairs admitted to the pool. -/
def kolTrainSamples (g : ExtDir) : List Sample :=
  if g.trainExists then kolSamplesFrom kolPre g.trainLabel (sortFiles g.trainFiles)
  else []

/-- Kolabit val pairs admitted to the pool. -/
def kolValSamples (g : ExtDir) : List Sample :=
  if g.valExists then kolSamplesFrom kolVPre g.valLabel (sortFiles g.valFiles)
  else []

/-- Admitted stems of the kolabit train subtree. -/
def kolTrainStems (g : ExtDir) : List Bytes :=
  if g.trainExists then kolStemsFrom g.trainLabel (sortFiles g.trainFiles)
  else []

/-- Admitted stems of the kolabit val subtree. -/
def kolValStems (g : ExtDir) : List Bytes :=
  if g.valExists then kolStemsFrom g.valLabel (sortFiles g.valFiles)
  else []

/-- The complete pool all_samples in construction order: seed originals,
augmented variants, kolabit train, kolabit val. -/
def allSamples (d : SeedDir) (g : ExtDir) (tfs : Cascade) : List Sample :=
  seedOriginals d ++ augmentedSamples d tfs ++ kolTrainSamples g ++ kolValSamples g

/-- The provenance base names of the pool, in pool order. -/
def poolNames (d : SeedDir) (g : ExtDir) (tfs : Cascade) : List Bytes :=
  (allSamples d g tfs).map Sample.name

/-- One step of a linear congruential generator standing in for the
stdlib Mersenne Twister stream consumed by random.shuffle.  The claims
about the split depend only on the generator being a deterministic
function of the seed, not on the exact stream. -/
def lcgNext (s : Nat) : Nat := (s * 1103515245 + 12345) % 2147483648

/-- Swap two positions of a list (the assignment step of the
Fisher-Yates loop inside random.shuffle); out of range indices leave the
list unchanged. -/
def listSwap (xs : List α) (i j : Nat) : List α :=
  match xs.get? i, xs.get? j with
  | some a, some b => (xs.set i b).set j a
  | _, _ => xs

/-- The Fisher-Yates loop of random.shuffle: the counter k walks the
index i = k downto 1, drawing j below i + 1 and swapping positions i
and j. -/
def shuffleGo : Nat → Nat → List α → List α × Nat
  | 0 => fun st xs => (xs, st)
  | k + 1 => fun st xs =>
      shuffleGo k (lcgNext st) (listSwap xs (k + 1) (lcgNext st % (k + 2)))

/-- random.seed(s) followed by random.shuffle(xs) (augment.py lines 231
and 232): the global generator state is reset from the integer seed and
the list is permuted in place by the Fisher-Yates loop. -/
def pyShuffle (s : Nat) (xs : List α) : List α :=
  (shuffleGo (xs.length - 1) s xs).1

/-- val_count of augment.py line 234: int(len(all_samples) * r) with a
floor of one.  The ratio is modelled as a rational; int() truncation on a
nonnegative float is the floor. -/
def val_count (n : Nat) (r : ℚ) : Nat :=
  max 1 (Int.toNat ⌊(n : ℚ) * r⌋)

/-- The shuffle and split step (augment.py lines 231 to 236).  The first
component is val_samples, the first val_count entries of the shuffled
pool; the second is train_samples, the rest.  The ambient state of the
global random module at entry is irrelevant because random.seed(42)
overwrites it, hence the fixed constant here. -/
def splitPool (r : ℚ) (pool : List Sample) : List Sample × List Sample :=
  let shuffled := pyShuffle 42 pool
  let vc := val_count pool.length r
  (shuffled.take vc, shuffled.drop vc)

/-- The state of the four output directories, each as the list of file
names it contains. -/
structure OutDirs where
  trainImgs : List Bytes
  trainLbls : List Bytes
  valImgs : List Bytes
  valLbls : List Bytes
deriving DecidableEq, Repr

/-- The clean-existing loop of augment.py lines 248 to 251: every file of
the directory is unlinked in turn. -/
def clearDir : List Bytes → List Bytes
  | [] => []
  | _ :: fs => clearDir fs

/-- Copy a file into a directory under a given name; an existing file of
the same name is overwritten, not duplicated. -/
def copyInto (dir : List Bytes) (n : Bytes) : List Bytes :=
  if n ∈ dir then dir else dir ++ [n]

/-- Materialize one output directory (augment.py lines 247 to 256):
clear the existing files, then copy every sample file in order. -/
def materializeDir (prev : List Bytes) (ns : List Bytes) : List Bytes :=
  ns.foldl copyInto (clearDir prev)

/-- Image file name written for a sample: name plus original extension
(augment.py lines 254 to 255). -/
def imgFileName (s : Sample) : Bytes := s.name ++ '.' :: s.ext

/-- Label file name written for a sample (augment.py line 256). -/
def lblFileName (s : Sample) : Bytes := s.name ++ str ".txt"

/-- Result of one full pipeline run. -/
structure RunOut where
  pool : List Sample
  valSamples : List Sample
  trainSamples : List Sample
  out : OutDirs
  yamlCounts : Nat × Nat
  yamlWritten : Bool
deriving Repr

/-- The augment_dataset pipeline (augment.py lines 142 to 289) over a
seed root, an external root and a cascade.  st0 is the state of the
global random module at entry -- overwritten by random.seed(42) before the
shuffle -- and prev the previous contents of the output directories, which
the materializer clears.  There is no abort path: the function always
completes, writing dataset.yaml (whose train and val counts are recorded
in yamlCounts) even when the pool is empty. -/
def augment_dataset (d : SeedDir) (g : ExtDir) (tfs : Cascade) (r : ℚ)
    (_st0 : Nat) (prev : OutDirs) : RunOut :=
  let pool := allSamples d g tfs
  let parts := splitPool r pool
  let vals := parts.1
  let trains := parts.2
  { pool := pool
    valSamples := vals
    trainSamples := trains
    out :=
      { trainImgs := materializeDir prev.trainImgs (trains.map imgFileName)
        trainLbls := materializeDir prev.trainLbls (trains.map lblFileName)
        valImgs := materializeDir prev.valImgs (vals.map imgFileName)
        valLbls := materializeDir prev.valLbls (vals.map lblFileName) }
    yamlCounts := (trains.length, vals.length)
    yamlWritten := true }

/-- Admitted seed stems: the jpg stems whose label file exists, those the
collector turns into pool pairs. -/
def admittedSeedStems (d : SeedDir) : List Bytes :=
  (kipImgStems d).filter (fun s => (d.label s).isSome)

/-- Tags of the cascade operators that succeed on the decoded image of a
stem; empty when the label is missing or the image does not decode. -/
def okTags (d : SeedDir) (tfs : Cascade) (s : Bytes) : List Bytes :=
  match d.label s, d.image s with
  | some _, some img => (tfs.filter (fun tf => exceptOk (tf.2 img))).map Prod.fst
  | _, _ => []

/-- Pool pairs contributed by one labeled seed stem: its original plus
its surviving augmented variants. -/
def stemContribution (d : SeedDir) (tfs : Cascade) (s : Bytes) : Nat :=
  (seedPairOfStem d s ++ augPairsOfStem d tfs s).length

/-- A cascade with the source tag list whose operators all succeed,
used to instantiate pipeline statements. -/
def okCascade : Cascade := TAGS.map (fun t => (t, fun i => Except.ok i))

/-- A label payload used by concrete instances. -/
def lblW : Bytes := str "0 0.5 0.5 0.1 0.1"

/-- A seed root with no files at all. -/
def dEmpty : SeedDir := ⟨[], fun _ => none, fun _ => none⟩

/-- An external root whose subtrees are absent. -/
def gEmpty : ExtDir := ⟨false, [], fun _ => none, false, [], fun _ => none⟩

/-- Output directories left over from an earlier run, holding one stale
image and one stale label. -/
def prevStale : OutDirs :=
  ⟨[str "stale.jpg"], [str "stale.txt"], [], []⟩

/-- A seed root holding the two labeled jpg images a.jpg and a_at15.jpg,
whose provenance names collide with an augmented variant of a. -/
def dEx : SeedDir :=
  { imgFiles := [(str "a", str "jpg"), (str "a_at15", str "jpg")]
    label := fun _ => some lblW
    image := fun _ => some [0, 1] }

/-- An external root whose train subtree holds b.jpg, b.png and v_c.jpg
and whose val subtree holds c.jpg, all labeled: b collides with itself
across extensions and v_c collides with the val entry c. -/
def gEx : ExtDir :=
  { trainExists := true
    trainFiles := [(str "b", str "jpg"), (str "b", str "png"), (str "v_c", str "jpg")]
    trainLabel := fun _ => some lblW
    valExists := true
    valFiles := [(str "c", str "jpg")]
    valLabel := fun _ => some lblW }

/-- A seed root holding two labeled jpg images with unproblematic stems. -/
def dW : SeedDir :=
  { imgFiles := [(str "a", str "jpg"), (str "b", str "jpg")]
    label := fun _ => some lblW
    image := fun _ => some [0, 1] }

/-- An external root with one labeled train image and one labeled val
image. -/
def gW : ExtDir :=
  { trainExists := true
    trainFiles := [(str "c", str "jpg")]
    trainLabel := fun _ => some lblW
    valExists := true
    valFiles := [(str "d", str "jpg")]
    valLabel := fun _ => some lblW }

/-- A seed root whose only image is a labeled png: the seed collector
ignores it because glob("*.jpg") never lists it. -/
def dPng : SeedDir :=
  ⟨[(str "a", str "png")], fun _ => some lblW, fun _ => some [0]⟩

/-- An external root whose train subtree holds the same labeled png. -/
def gPng : ExtDir :=
  ⟨true, [(str "a", str "png")], fun _ => some lblW, false, [], fun _ => none⟩

/-- A concrete pool of three distinct samples. -/
def poolW : List Sample :=
  [⟨str "kol_a", lblW, str "jpg"⟩, ⟨str "kol_b", lblW, str "jpg"⟩,
   ⟨str "kol_c", lblW, str "jpg"⟩]

/-- A two operator cascade whose second operator always raises. -/
def failCascade : Cascade :=
  [(str "at15", fun i => Except.ok i), (str "boom", fun _ => Except.error ())]

section SupportLemmas

theorem clearDir_eq_nil (l : List Bytes) : clearDir l = [] := by
  induction l <;> simp [clearDir, *]

theorem length_listSwap (xs : List α) (i j : Nat) :
    (listSwap xs i j).length = xs.length := by
  unfold listSwap
  cases xs.get? i <;> cases xs.get? j <;> simp

theorem shuffleGo_succ (st : Nat) (xs : List α) (k : Nat) :
    shuffleGo (k + 1) st xs
      = shuffleGo k (lcgNext st) (listSwap xs (k + 1) (lcgNext st % (k + 2))) := rfl

theorem length_shuffleGo (k : Nat) :
    ∀ (st : Nat) (xs : List α), ((shuffleGo k st xs).1).length = xs.length := by
  induction k with
  | zero => intro st xs; rfl
  | succ k ih => intro st xs; rw [shuffleGo_succ, ih, length_listSwap]

theorem length_pyShuffle (s : Nat) (xs : List α) :
    (pyShuffle s xs).length = xs.length :=
  length_shuffleGo (xs.length - 1) s xs

theorem mem_sortBytes {x : Bytes} {l : List Bytes} : x ∈ sortBytes l ↔ x ∈ l :=
  (List.perm_insertionSort _ l).mem_iff

theorem nodup_sortBytes {l : List Bytes} (h : l.Nodup) : (sortBytes l).Nodup :=
  ((List.perm_insertionSort _ l).nodup_iff).mpr h

theorem mem_sortFiles {x : FileEntry} {l : List FileEntry} :
    x ∈ sortFiles l ↔ x ∈ l :=
  (List.perm_insertionSort _ l).mem_iff

theorem length_filterMap_eq_filter (l : List α) (f : α → Option β) (p : α → Bool)
    (h : ∀ a, (f a).isSome = p a) :
    (l.filterMap f).length = (l.filter p).length := by
  induction l with
  | nil => rfl
  | cons a as ih =>
    rw [List.filterMap_cons, List.filter_cons, ← h a]
    cases hfa : f a <;> simp [hfa, ih]

theorem length_filter_split (l : List α) (p : α → Bool) :
    (l.filter p).length + (l.filter (fun a => !(p a))).length = l.length := by
  induction l with
  | nil => rfl
  | cons a as ih => cases hpa : p a <;> simp [List.filter_cons, hpa, ← ih] <;> omega

theorem seedNames_eq (d : SeedDir) :
    (seedOriginals d).map Sample.name
      = (admittedSeedStems d).map (fun s => kipPre ++ s) := by
  unfold seedOriginals admittedSeedStems
  induction kipImgStems d with
  | nil => rfl
  | cons s ss ih =>
    rw [List.flatMap_cons, List.filter_cons]
    cases hl : d.label s <;> simp [seedPairOfStem, hl, ih]

theorem augNamesInner (img : Img) (lb s : Bytes) (tfs : Cascade) :
    (tfs.filterMap (fun tf =>
        match tf.2 img with
        | .ok _ => some (⟨kipPre ++ s ++ '_' :: tf.1, lb, str "jpg"⟩ : Sample)
        | .error _ => none)).map Sample.name
      = ((tfs.filter (fun tf => exceptOk (tf.2 img))).map Prod.fst).map
          (fun t => kipPre ++ s ++ '_' :: t) := by
  induction tfs with
  | nil => rfl
  | cons tf tfs ih =>
    rw [List.filterMap_cons, List.filter_cons]
    cases ho : tf.2 img with
    | ok a =>
      simp only [ho, exceptOk, if_true, List.map_cons, List.cons.injEq]
      exact ⟨trivial, ih⟩
    | error a =>
      simp only [ho, exceptOk, if_false, Bool.false_eq_true]
      exact ih

theorem augNames_eq (d : SeedDir) (tfs : Cascade) (s : Bytes) :
    (augPairsOfStem d tfs s).map Sample.name
      = (okTags d tfs s).map (fun t => kipPre ++ s ++ '_' :: t) := by
  unfold augPairsOfStem okTags
  cases hl : d.label s with
  | none => rfl
  | some lb =>
    cases hi : d.image s with
    | none => rfl
    | some img => exact augNamesInner img lb s tfs

theorem augmentedNames_eq (d : SeedDir) (tfs : Cascade) :
    (augmentedSamples d tfs).map Sample.name
      = (kipImgStems d).flatMap
          (fun s => (okTags d tfs s).map (fun t => kipPre ++ s ++ '_' :: t)) := by
  unfold augmentedSamples
  rw [List.map_flatMap]
  exact List.flatMap_congr (fun s _ => augNames_eq d tfs s)

theorem okTags_sublist (d : SeedDir) (tfs : Cascade) (s : Bytes)
    (hT : tfs.map Prod.fst = TAGS) : (okTags d tfs s).Sublist TAGS := by
  unfold okTags
  cases d.label s with
  | none => exact List.nil_sublist TAGS
  | some lb =>
    cases d.image s with
    | none => exact List.nil_sublist TAGS
    | some img => exact hT ▸ (List.filter_sublist tfs).map Prod.fst

theorem kolNames_eq (pre : Bytes) (lab : Bytes → Option Bytes)
    (l : List FileEntry) :
    (kolSamplesFrom pre lab l).map Sample.name
      = (kolStemsFrom lab l).map (fun s => pre ++ s) := by
  unfold kolSamplesFrom kolStemsFrom
  induction l with
  | nil => rfl
  | cons f fs ih =>
    rw [List.filterMap_cons, List.filterMap_cons]
    cases hE : extOk f.2 <;> cases hL : lab f.1 <;> simp [hE, hL, ih]

theorem kolTrainNames_eq (g : ExtDir) :
    (kolTrainSamples g).map Sample.name
      = (kolTrainStems g).map (fun s => kolPre ++ s) := by
  unfold kolTrainSamples kolTrainStems
  cases g.trainExists <;> simp [kolNames_eq]

theorem kolValNames_eq (g : ExtDir) :
    (kolValSamples g).map Sample.name
      = (kolValStems g).map (fun s => kolVPre ++ s) := by
  unfold kolValSamples kolValStems
  cases g.valExists <;> simp [kolNames_eq]

theorem TAGS_nodup : TAGS.Nodup := by decide

theorem tag_suffix_free :
    ∀ t1 ∈ TAGS, ∀ t2 ∈ TAGS, ('_' :: t1 <:+ '_' :: t2) → t1 = t2 := by decide

theorem aug_piece_inj {s1 s2 t1 t2 : Bytes} (h1 : t1 ∈ TAGS) (h2 : t2 ∈ TAGS)
    (h : s1 ++ '_' :: t1 = s2 ++ '_' :: t2) : s1 = s2 ∧ t1 = t2 := by
  have hs1 : ('_' :: t1) <:+ (s2 ++ '_' :: t2) := h ▸ List.suffix_append s1 ('_' :: t1)
  have hs2 : ('_' :: t2) <:+ (s2 ++ '_' :: t2) := List.suffix_append s2 ('_' :: t2)
  have ht : t1 = t2 := by
    rcases List.suffix_or_suffix_of_suffix hs1 hs2 with h' | h'
    · exact tag_suffix_free t1 h1 t2 h2 h'
    · exact (tag_suffix_free t2 h2 t1 h1 h').symm
  subst ht
  exact ⟨List.append_cancel_right h, rfl⟩

theorem kip_ne_kol (u v : Bytes) : kipPre ++ u ≠ kolPre ++ v := by
  intro h
  have h' : ('k' :: 'i' :: 'p' :: '_' :: u : Bytes)
      = 'k' :: 'o' :: 'l' :: '_' :: v := h
  simp at h'

theorem kip_ne_kolV (u v : Bytes) : kipPre ++ u ≠ kolVPre ++ v := by
  intro h
  have h' : ('k' :: 'i' :: 'p' :: '_' :: u : Bytes)
      = 'k' :: 'o' :: 'l' :: '_' :: 'v' :: '_' :: v := h
  simp at h'

theorem kol_eq_kolV {s1 s2 : Bytes} (h : kolPre ++ s1 = kolVPre ++ s2) :
    s1 = 'v' :: '_' :: s2 := by
  have h' : ('k' :: 'o' :: 'l' :: '_' :: s1 : Bytes)
      = 'k' :: 'o' :: 'l' :: '_' :: 'v' :: '_' :: s2 := h
  simpa using h'

end SupportLemmas

section Claims

/-- C1: for every pool of size n of at least one and every ratio r with
0 <= r < 1, the splitter assigns exactly val_count = max(1, floor(n * r))
pairs to the validation subset, namely the first val_count entries of
the shuffled pool, and the remaining n - val_count pairs to the train
subset; in particular val_count is 11 for n = 57, r = 1/5 (train 46) and
1 for n = 3, r = 1/5. -/
theorem C1_split_sizing (pool : List Sample) (r : ℚ)
    (h1 : 1 ≤ pool.length) (_h2 : 0 ≤ r) (h3 : r < 1) :
    ((splitPool r pool).1.length = val_count pool.length r ∧
      (splitPool r pool).2.length = pool.length - val_count pool.length r ∧
      (splitPool r pool).1 = (pyShuffle 42 pool).take (val_count pool.length r)) ∧
    val_count 57 (1/5) = 11 ∧ 57 - val_count 57 (1/5) = 46 ∧
    val_count 3 (1/5) = 1 := by
  have hlen : (pyShuffle 42 pool).length = pool.length := length_pyShuffle 42 pool
  have hvc : val_count pool.length r ≤ pool.length := by
    unfold val_count
    refine max_le h1 ?_
    have hp : (0 : ℚ) < (pool.length : ℚ) := by
      have h0 : (0 : ℕ) < pool.length := h1
      exact_mod_cast h0
    have hq : (pool.length : ℚ) * r < (pool.length : ℚ) :=
      (mul_lt_mul_of_pos_left h3 hp).trans_eq (mul_one _)
    have hfl : ⌊(pool.length : ℚ) * r⌋ < ((pool.length : ℕ) : ℤ) := by
      rw [Int.floor_lt]
      push_cast
      exact hq
    exact Int.toNat_le.mpr (le_of_lt hfl)
  refine ⟨⟨?_, ?_, rfl⟩, ?_, ?_, ?_⟩
  · simp [splitPool, List.length_take, hlen, Nat.min_eq_left hvc]
  · simp [splitPool, List.length_drop, hlen]
  · norm_num [val_count]
    decide
  · norm_num [val_count]
    decide
  · norm_num [val_count]

/-- C1 witness: the sizing theorem instantiated at a concrete pool of
three samples and ratio 1/5. -/
theorem C1_split_sizing_witness :
    (splitPool (1/5) poolW).1.length = val_count poolW.length (1/5) :=
  ((C1_split_sizing poolW (1/5) (by decide) (by norm_num) (by norm_num)).1).1

/-- C2 counterexample: with no admissible input pairs at all the pool is
empty, yet the run does not abort -- dataset.yaml is still written and the
output directories are still materialized (the stale file of a previous
run is deleted), refuting the claim that an empty pool aborts the run
with no output written. -/
theorem C2_counterexample :
    allSamples dEmpty gEmpty okCascade = [] ∧
    (augment_dataset dEmpty gEmpty okCascade (1/5) 0 prevStale).yamlWritten = true ∧
    (augment_dataset dEmpty gEmpty okCascade (1/5) 0 prevStale).out.trainImgs
      ≠ prevStale.trainImgs := by
  have hp : allSamples dEmpty gEmpty okCascade = [] := rfl
  refine ⟨hp, rfl, ?_⟩
  simp [augment_dataset, splitPool, pyShuffle, hp, shuffleGo, materializeDir,
    clearDir, prevStale]

/-- C2 amended: an empty pool is not a fatal condition; the run completes
without aborting, the split degenerates to two empty subsets (val_count
is 1 but there is nothing to take), the output directories are emptied of
previous files and left empty, and the manifest is written with zero
train and val counts. -/
theorem C2_empty_pool_continues (d : SeedDir) (g : ExtDir) (tfs : Cascade)
    (r : ℚ) (st0 : Nat) (prev : OutDirs)
    (h : allSamples d g tfs = []) :
    (augment_dataset d g tfs r st0 prev).yamlWritten = true ∧
    (augment_dataset d g tfs r st0 prev).valSamples = [] ∧
    (augment_dataset d g tfs r st0 prev).trainSamples = [] ∧
    (augment_dataset d g tfs r st0 prev).out = ⟨[], [], [], []⟩ ∧
    (augment_dataset d g tfs r st0 prev).yamlCounts = (0, 0) := by
  refine ⟨rfl, ?_, ?_, ?_, ?_⟩ <;>
    simp [augment_dataset, splitPool, pyShuffle, h, shuffleGo, materializeDir,
      clearDir_eq_nil]

/-- C2 witness: the amended behavior at the concrete empty input. -/
theorem C2_empty_pool_continues_witness :
    (augment_dataset dEmpty gEmpty okCascade (1/5) 0 prevStale).yamlWritten = true ∧
    (augment_dataset dEmpty gEmpty okCascade (1/5) 0 prevStale).valSamples = [] ∧
    (augment_dataset dEmpty gEmpty okCascade (1/5) 0 prevStale).trainSamples = [] ∧
    (augment_dataset dEmpty gEmpty okCascade (1/5) 0 prevStale).out = ⟨[], [], [], []⟩ ∧
    (augment_dataset dEmpty gEmpty okCascade (1/5) 0 prevStale).yamlCounts = (0, 0) :=
  C2_empty_pool_continues dEmpty gEmpty okCascade (1/5) 0 prevStale rfl

/-- C3: the train and validation membership assignment is a function of
the pool content and order and the fixed seed and ratio alone: two runs
over the same roots and cascade with the same ratio agree on both
subsets, whatever the ambient state of the global random module at entry
and whatever the previous output contents were. -/
theorem C3_split_deterministic (d : SeedDir) (g : ExtDir) (tfs : Cascade)
    (r : ℚ) (st1 st2 : Nat) (p1 p2 : OutDirs) :
    (augment_dataset d g tfs r st1 p1).valSamples
        = (augment_dataset d g tfs r st2 p2).valSamples ∧
    (augment_dataset d g tfs r st1 p1).trainSamples
        = (augment_dataset d g tfs r st2 p2).trainSamples :=
  ⟨rfl, rfl⟩

/-- C7: on an image of uniform intensity (minimum equals maximum) the
contrast stretch operator skips the stretch and returns the original
intensities unchanged, so no division by zero occurs and every produced
value stays in the valid uint8 range. -/
theorem C7_degenerate_contrast_stretch (gr : Img)
    (hu : minL gr = maxL gr) (hr : ∀ v ∈ gr, v ≤ 255) :
    contrast_stretch gr = gr ∧ ∀ v ∈ contrast_stretch gr, v ≤ 255 := by
  have he : contrast_stretch gr = gr := by
    simp [contrast_stretch, hu.symm]
  exact ⟨he, by rw [he]; exact hr⟩

/-- C7 witness: the degenerate stretch theorem at a uniform image. -/
theorem C7_degenerate_contrast_stretch_witness :
    contrast_stretch [7, 7, 7] = [7, 7, 7] ∧
      ∀ v ∈ contrast_stretch [7, 7, 7], v ≤ 255 :=
  C7_degenerate_contrast_stretch [7, 7, 7] (by decide) (by decide)

/-- C8: a second run over identical inputs leaves every output directory
with exactly the file count of the first run; materialization clears the
target directories before copying, so nothing accumulates. -/
theorem C8_idempotent_output (d : SeedDir) (g : ExtDir) (tfs : Cascade)
    (r : ℚ) (st1 st2 : Nat) (prev : OutDirs) :
    (augment_dataset d g tfs r st2
        (augment_dataset d g tfs r st1 prev).out).out.trainImgs.length
      = (augment_dataset d g tfs r st1 prev).out.trainImgs.length ∧
    (augment_dataset d g tfs r st2
        (augment_dataset d g tfs r st1 prev).out).out.trainLbls.length
      = (augment_dataset d g tfs r st1 prev).out.trainLbls.length ∧
    (augment_dataset d g tfs r st2
        (augment_dataset d g tfs r st1 prev).out).out.valImgs.length
      = (augment_dataset d g tfs r st1 prev).out.valImgs.length ∧
    (augment_dataset d g tfs r st2
        (augment_dataset d g tfs r st1 prev).out).out.valLbls.length
      = (augment_dataset d g tfs r st1 prev).out.valLbls.length := by
  have hconst : ∀ (o1 o2 : OutDirs) (s1 s2 : Nat),
      (augment_dataset d g tfs r s1 o1).out = (augment_dataset d g tfs r s2 o2).out := by
    intro o1 o2 s1 s2
    simp [augment_dataset, materializeDir, clearDir_eq_nil]
  exact ⟨congrArg (fun o => o.trainImgs.length) (hconst _ prev st2 st1),
    congrArg (fun o => o.trainLbls.length) (hconst _ prev st2 st1),
    congrArg (fun o => o.valImgs.length) (hconst _ prev st2 st1),
    congrArg (fun o => o.valLbls.length) (hconst _ prev st2 st1)⟩

/-- C10: the gaussian noise operator is not a function of its input image
alone: it reads the global NumPy generator stream, which the pipeline
never seeds, and two different ambient streams yield different output
images on the same input. -/
theorem C10_gaussian_noise_nondeterministic :
    ∃ (img : Img) (n1 n2 : Nat → Int),
      gaussian_noise n1 img ≠ gaussian_noise n2 img :=
  ⟨[100], fun _ => 0, fun _ => 50, by decide⟩

/-- C4: every augmented pair produced by the expander carries a label
payload identical to the label of its source seed stem, and its name
embeds the source stem and the tag of the operator that produced it. -/
theorem C4_label_fidelity (d : SeedDir) (tfs : Cascade) (p : Sample)
    (hp : p ∈ augmentedSamples d tfs) :
    ∃ s ∈ kipImgStems d, d.label s = some p.lbl ∧
      ∃ t ∈ tfs.map Prod.fst, p.name = kipPre ++ s ++ '_' :: t := by
  simp only [augmentedSamples, List.mem_flatMap] at hp
  obtain ⟨s, hs, hps⟩ := hp
  refine ⟨s, hs, ?_⟩
  unfold augPairsOfStem at hps
  cases hl : d.label s with
  | none => rw [hl] at hps; simp at hps
  | some lb =>
    rw [hl] at hps
    cases hi : d.image s with
    | none => rw [hi] at hps; simp at hps
    | some img =>
      rw [hi] at hps
      simp only [List.mem_filterMap] at hps
      obtain ⟨tf, htf, heq⟩ := hps
      cases ho : tf.2 img with
      | ok a =>
        rw [ho] at heq
        have hpe : p = ⟨kipPre ++ s ++ '_' :: tf.1, lb, str "jpg"⟩ :=
          (Option.some.inj heq).symm
        subst hpe
        exact ⟨rfl, tf.1, List.mem_map_of_mem Prod.fst htf, rfl⟩
      | error a => rw [ho] at heq; simp at heq

/-- C4 witness: the fidelity theorem at a concrete augmented pair of the
all-succeeding cascade over the two stem seed root. -/
theorem C4_label_fidelity_witness :
    ∃ s ∈ kipImgStems dW,
      dW.label s = some (Sample.lbl ⟨kipPre ++ str "a" ++ '_' :: str "at15", lblW, str "jpg"⟩) ∧
      ∃ t ∈ okCascade.map Prod.fst,
        Sample.name ⟨kipPre ++ str "a" ++ '_' :: str "at15", lblW, str "jpg"⟩
          = kipPre ++ s ++ '_' :: t :=
  C4_label_fidelity dW okCascade ⟨kipPre ++ str "a" ++ '_' :: str "at15", lblW, str "jpg"⟩
    (by decide)

/-- C6: an operator that raises on an image is skipped without aborting
the run: a labeled, decodable seed stem contributes exactly one original
pair plus one augmented pair per succeeding cascade operator; with every
operator succeeding that is 1 + the cascade size, and with the failing
operators numbering exactly one it is 1 + (cascade size - 1). -/
theorem C6_per_operator_failure (d : SeedDir) (tfs : Cascade) (s lb : Bytes)
    (img : Img) (hl : d.label s = some lb) (hi : d.image s = some img) :
    stemContribution d tfs s
        = 1 + (tfs.filter (fun tf => exceptOk (tf.2 img))).length ∧
    ((∀ tf ∈ tfs, exceptOk (tf.2 img) = true) →
      stemContribution d tfs s = 1 + tfs.length) ∧
    ((tfs.filter (fun tf => !(exceptOk (tf.2 img)))).length = 1 →
      stemContribution d tfs s = 1 + (tfs.length - 1)) := by
  have hcond : ∀ tf : Bytes × (Img → Except Unit Img),
      ((match tf.2 img with
        | .ok _ => some (⟨kipPre ++ s ++ '_' :: tf.1, lb, str "jpg"⟩ : Sample)
        | .error _ => none)).isSome = exceptOk (tf.2 img) := by
    intro tf
    cases h : tf.2 img <;> simp [exceptOk, h]
  have hmain : stemContribution d tfs s
      = 1 + (tfs.filter (fun tf => exceptOk (tf.2 img))).length := by
    unfold stemContribution seedPairOfStem augPairsOfStem
    rw [hl, hi]
    rw [List.length_append,
      length_filterMap_eq_filter tfs _ (fun tf => exceptOk (tf.2 img)) hcond]
    rfl
  refine ⟨hmain, ?_, ?_⟩
  · intro hall
    rw [hmain, List.filter_eq_self.mpr hall]
  · intro hone
    have hsplit := length_filter_split tfs (fun tf => exceptOk (tf.2 img))
    omega

/-- C6 witness: with the two operator cascade whose second operator
always raises, the labeled stem a contributes 1 + (2 - 1) = 2 pairs. -/
theorem C6_per_operator_failure_witness :
    stemContribution dW failCascade (str "a") = 1 + (failCascade.length - 1) :=
  (C6_per_operator_failure dW failCascade (str "a") lblW [0, 1] rfl rfl).2.2
    (by decide)

/-- C9 counterexample: a labeled png image under images/train is an
image file with one of the contract extensions, yet the seed collector
admits nothing from it -- its glob pattern lists only jpg files -- while
the external collector over the identically shaped root admits it. -/
theorem C9_counterexample :
    str "a" ∉ admittedSeedStems dPng ∧ seedOriginals dPng = [] ∧
    str "a" ∈ kolTrainStems gPng := by decide

/-- C9 amended: the two ingests share the directory shape but not the
extension rule.  The seed collector admits a stem exactly when a file
with literal extension jpg carries it and its label exists; the external
collector admits a stem exactly when some file whose lowercased
extension is jpg, jpeg or png carries it, the subtree exists, and its
label exists. -/
theorem C9_ingestion_shapes (d : SeedDir) (g : ExtDir) (s x lb : Bytes) :
    ((s, x) ∈ d.imgFiles → x = str "jpg" → d.label s = some lb →
        s ∈ admittedSeedStems d) ∧
    (s ∈ admittedSeedStems d →
        (s, str "jpg") ∈ d.imgFiles ∧ (d.label s).isSome = true) ∧
    (g.trainExists = true → (s, x) ∈ g.trainFiles → extOk x = true →
        g.trainLabel s = some lb → s ∈ kolTrainStems g) ∧
    (s ∈ kolTrainStems g →
        g.trainExists = true ∧ ∃ x2, (s, x2) ∈ g.trainFiles ∧ extOk x2 = true ∧
          (g.trainLabel s).isSome = true) := by
  refine ⟨?_, ?_, ?_, ?_⟩
  · intro hmem hx hlbl
    unfold admittedSeedStems kipImgStems
    rw [List.mem_filter]
    constructor
    · rw [mem_sortBytes, List.mem_map]
      exact ⟨(s, x), List.mem_filter.mpr ⟨hmem, by simp [hx]⟩, rfl⟩
    · simp [hlbl]
  · intro hs
    unfold admittedSeedStems kipImgStems at hs
    rw [List.mem_filter] at hs
    obtain ⟨hs1, hs2⟩ := hs
    rw [mem_sortBytes, List.mem_map] at hs1
    obtain ⟨⟨s1, x1⟩, hf, hfs⟩ := hs1
    rw [List.mem_filter] at hf
    obtain ⟨hf1, hf2⟩ := hf
    simp only at hfs
    subst hfs
    simp only [decide_eq_true_eq] at hf2
    subst hf2
    exact ⟨hf1, hs2⟩
  · intro hex hmem hx hlbl
    unfold kolTrainStems
    rw [hex]
    simp only [if_true]
    unfold kolStemsFrom
    rw [List.mem_filterMap]
    refine ⟨(s, x), mem_sortFiles.mpr hmem, ?_⟩
    simp [hx, hlbl]
  · intro hs
    unfold kolTrainStems at hs
    cases hex : g.trainExists with
    | false => rw [hex] at hs; simp at hs
    | true =>
      rw [hex] at hs
      simp only [if_true] at hs
      unfold kolStemsFrom at hs
      rw [List.mem_filterMap] at hs
      obtain ⟨⟨s1, x1⟩, hf, hsome⟩ := hs
      cases hE : (extOk x1 && (g.trainLabel s1).isSome) with
      | false => rw [hE] at hsome; simp at hsome
      | true =>
        rw [hE] at hsome
        simp only [if_true, Option.some.injEq] at hsome
        subst hsome
        obtain ⟨hE1, hE2⟩ := Bool.and_eq_true_iff.mp hE
        exact ⟨rfl, x1, mem_sortFiles.mp hf, hE1, hE2⟩

/-- C9 witness: the amended characterization applied at the jpg seed
root and the jpg external root. -/
theorem C9_ingestion_shapes_witness :
    str "a" ∈ admittedSeedStems dW ∧ str "c" ∈ kolTrainStems gW :=
  ⟨(C9_ingestion_shapes dW gW (str "a") (str "jpg") lblW).1
      (by decide) rfl rfl,
    (C9_ingestion_shapes dW gW (str "c") (str "jpg") lblW).2.2.1
      rfl (by decide) (by decide) rfl⟩

/-- C5 counterexample: provenance names are not collision free for every
combination of source file names.  With seed stems a and a_at15 the seed
original kip_a_at15 coincides with the at15 variant of a; with external
train files b.jpg and b.png both labeled the name kol_b repeats; with
external train stem v_c and external val stem c the names kol_v_c
coincide.  The pool name list of this instance has duplicates. -/
theorem C5_counterexample : ¬ (poolNames dEx gEx okCascade).Nodup := by decide

/-- C5 amended: the provenance names of all admitted pairs are pairwise
distinct provided the admitted stems of each source are themselves
distinct, no seed stem equals another seed stem followed by an
underscore and a cascade tag, and no external train stem equals v_
followed by an external val stem.  The prefixing alone guarantees
distinctness across the kip and kol families but not within them. -/
theorem C5_provenance_uniqueness (d : SeedDir) (g : ExtDir) (tfs : Cascade)
    (hT : tfs.map Prod.fst = TAGS)
    (h1 : (kipImgStems d).Nodup)
    (h2 : (kolTrainStems g).Nodup)
    (h3 : (kolValStems g).Nodup)
    (h5 : ∀ s1 ∈ kipImgStems d, ∀ s2 ∈ kipImgStems d, ∀ t ∈ TAGS,
      s1 ≠ s2 ++ '_' :: t)
    (h6 : ∀ s1 ∈ kolTrainStems g, ∀ s2 ∈ kolValStems g,
      s1 ≠ 'v' :: '_' :: s2) :
    (poolNames d g tfs).Nodup := by
  have hSN : poolNames d g tfs
      = (admittedSeedStems d).map (fun s => kipPre ++ s)
        ++ (kipImgStems d).flatMap
            (fun s => (okTags d tfs s).map (fun t => kipPre ++ s ++ '_' :: t))
        ++ (kolTrainStems g).map (fun s => kolPre ++ s)
        ++ (kolValStems g).map (fun s => kolVPre ++ s) := by
    unfold poolNames allSamples
    rw [List.map_append, List.map_append, List.map_append,
      seedNames_eq, augmentedNames_eq, kolTrainNames_eq, kolValNames_eq]
  rw [hSN]
  have memA : ∀ {x}, x ∈ (admittedSeedStems d).map (fun s => kipPre ++ s) →
      ∃ s, s ∈ kipImgStems d ∧ x = kipPre ++ s := by
    intro x hx
    rw [List.mem_map] at hx
    obtain ⟨s, hs, rfl⟩ := hx
    unfold admittedSeedStems at hs
    rw [List.mem_filter] at hs
    exact ⟨s, hs.1, rfl⟩
  have memB : ∀ {x}, x ∈ (kipImgStems d).flatMap
        (fun s => (okTags d tfs s).map (fun t => kipPre ++ s ++ '_' :: t)) →
      ∃ s t, s ∈ kipImgStems d ∧ t ∈ TAGS ∧ x = kipPre ++ s ++ '_' :: t := by
    intro x hx
    rw [List.mem_flatMap] at hx
    obtain ⟨s, hs, hx⟩ := hx
    rw [List.mem_map] at hx
    obtain ⟨t, ht, rfl⟩ := hx
    exact ⟨s, t, hs, (okTags_sublist d tfs s hT).subset ht, rfl⟩
  have memC : ∀ {x}, x ∈ (kolTrainStems g).map (fun s => kolPre ++ s) →
      ∃ s, s ∈ kolTrainStems g ∧ x = kolPre ++ s := by
    intro x hx
    rw [List.mem_map] at hx
    obtain ⟨s, hs, rfl⟩ := hx
    exact ⟨s, hs, rfl⟩
  have memD : ∀ {x}, x ∈ (kolValStems g).map (fun s => kolVPre ++ s) →
      ∃ s, s ∈ kolValStems g ∧ x = kolVPre ++ s := by
    intro x hx
    rw [List.mem_map] at hx
    obtain ⟨s, hs, rfl⟩ := hx
    exact ⟨s, hs, rfl⟩
  have hNA : ((admittedSeedStems d).map (fun s => kipPre ++ s)).Nodup :=
    (List.Nodup.filter _ h1).map_on
      (fun _ _ _ _ h => List.append_cancel_left h)
  have hNB : ((kipImgStems d).flatMap
      (fun s => (okTags d tfs s).map (fun t => kipPre ++ s ++ '_' :: t))).Nodup := by
    rw [List.nodup_flatMap]
    constructor
    · intro s hs
      refine (((okTags_sublist d tfs s hT).nodup TAGS_nodup).map_on ?_)
      intro t1 ht1 t2 ht2 heq
      exact (aug_piece_inj ((okTags_sublist d tfs s hT).subset ht1)
        ((okTags_sublist d tfs s hT).subset ht2) heq).2
    · refine h1.imp ?_
      intro s1 s2 hne x hx1 hx2
      rw [List.mem_map] at hx1 hx2
      obtain ⟨t1, ht1, he1⟩ := hx1
      obtain ⟨t2, ht2, he2⟩ := hx2
      have heq : kipPre ++ s1 ++ '_' :: t1 = kipPre ++ s2 ++ '_' :: t2 :=
        he1.trans he2.symm
      have hpre : kipPre ++ s1 = kipPre ++ s2 :=
        (aug_piece_inj ((okTags_sublist d tfs s1 hT).subset ht1)
          ((okTags_sublist d tfs s2 hT).subset ht2) heq).1
      exact hne (List.append_cancel_left hpre)
  have hNC : ((kolTrainStems g).map (fun s => kolPre ++ s)).Nodup :=
    h2.map_on (fun _ _ _ _ h => List.append_cancel_left h)
  have hND : ((kolValStems g).map (fun s => kolVPre ++ s)).Nodup :=
    h3.map_on (fun _ _ _ _ h => List.append_cancel_left h)
  have dAB : List.Disjoint ((admittedSeedStems d).map (fun s => kipPre ++ s))
      ((kipImgStems d).flatMap
        (fun s => (okTags d tfs s).map (fun t => kipPre ++ s ++ '_' :: t))) := by
    intro x hxA hxB
    obtain ⟨s1, hs1, rfl⟩ := memA hxA
    obtain ⟨s2, t, hs2, htT, he⟩ := memB hxB
    have he' : kipPre ++ s1 = kipPre ++ (s2 ++ '_' :: t) := by
      rw [← List.append_assoc]
      exact he
    exact h5 s1 hs1 s2 hs2 t htT (List.append_cancel_left he')
  have dAC : List.Disjoint ((admittedSeedStems d).map (fun s => kipPre ++ s))
      ((kolTrainStems g).map (fun s => kolPre ++ s)) := by
    intro x hxA hxC
    obtain ⟨s1, _, rfl⟩ := memA hxA
    obtain ⟨s2, _, he⟩ := memC hxC
    exact kip_ne_kol s1 s2 he
  have dAD : List.Disjoint ((admittedSeedStems d).map (fun s => kipPre ++ s))
      ((kolValStems g).map (fun s => kolVPre ++ s)) := by
    intro x hxA hxD
    obtain ⟨s1, _, rfl⟩ := memA hxA
    obtain ⟨s2, _, he⟩ := memD hxD
    exact kip_ne_kolV s1 s2 he
  have dBC : List.Disjoint ((kipImgStems d).flatMap
      (fun s => (okTags d tfs s).map (fun t => kipPre ++ s ++ '_' :: t)))
      ((kolTrainStems g).map (fun s => kolPre ++ s)) := by
    intro x hxB hxC
    obtain ⟨s1, t, _, _, rfl⟩ := memB hxB
    obtain ⟨s2, _, he⟩ := memC hxC
    rw [List.append_assoc] at he
    exact kip_ne_kol (s1 ++ '_' :: t) s2 he
  have dBD : List.Disjoint ((kipImgStems d).flatMap
      (fun s => (okTags d tfs s).map (fun t => kipPre ++ s ++ '_' :: t)))
      ((kolValStems g).map (fun s => kolVPre ++ s)) := by
    intro x hxB hxD
    obtain ⟨s1, t, _, _, rfl⟩ := memB hxB
    obtain ⟨s2, _, he⟩ := memD hxD
    rw [List.append_assoc] at he
    exact kip_ne_kolV (s1 ++ '_' :: t) s2 he
  have dCD : List.Disjoint ((kolTrainStems g).map (fun s => kolPre ++ s))
      ((kolValStems g).map (fun s => kolVPre ++ s)) := by
    intro x hxC hxD
    obtain ⟨s1, hs1, rfl⟩ := memC hxC
    obtain ⟨s2, hs2, he⟩ := memD hxD
    exact h6 s1 hs1 s2 hs2 (kol_eq_kolV he)
  refine List.Nodup.append (List.Nodup.append (List.Nodup.append hNA hNB dAB)
      hNC ?_) hND ?_
  · rw [List.disjoint_append_left]
    exact ⟨dAC, dBC⟩
  · rw [List.disjoint_append_left, List.disjoint_append_left]
    exact ⟨⟨dAD, dBD⟩, dCD⟩

/-- C5 witness: the uniqueness theorem at a concrete instance with
benign stems, where the side conditions hold. -/
theorem C5_provenance_uniqueness_witness : (poolNames dW gW okCascade).Nodup :=
  C5_provenance_uniqueness dW gW okCascade rfl (by decide) (by decide)
    (by decide) (by decide) (by decide)

end Claims

end Augment
